import Mathlib

/-
Verification of the pengyhash Go package against its specification.

The definitions below are shallow embeddings of the Go source:
- Pengyhash and its helpers embed the one-shot 64-bit hash
  (function Pengyhash in pengyhash.go; the same function appears verbatim
  in the listing embedded in README.md).
- Hash256, New, Reset, write32, Write, Sum, MarshalBinary and
  UnmarshalBinary embed the incremental 256-bit engine.  The engine is
  taken from the complete listing in README.md (type hash256 with fields
  block, s, seed, total, n), which is the revision the test file
  compiles against: it is the only revision in the repository that
  defines MarshalBinary/UnmarshalBinary, required by TestMarshal.
  The older revision in pengyhash.go (fields b, s, seed, total, tmp, n)
  differs only in how the last-block cache is represented and in Reset.

Machine integers are modelled as Nat with explicit reduction modulo 2^64
(uint64 arithmetic wraps); bytes are Nat list entries.  Go's copy is
modelled by goCopy / goCopyAt, which overwrite a prefix/slice of the
destination and return the number of elements copied.  The loops of
Write and Pengyhash are written with an explicit fuel argument equal to
the buffer length at every call site; one fuel unit is spent per loop
iteration, and since every iteration consumes 32 bytes the fuel is never
exhausted (length <= fuel is an invariant of the recursion).
-/

namespace Pengy

/-- Modulus of 64-bit machine arithmetic. -/
def M64 : Nat := 2 ^ 64

/-- Wrapping 64-bit addition (Go uint64 +). -/
def add64 (a b : Nat) : Nat := (a + b) % M64

/-- Go bits.RotateLeft64: (x << k | x >> (64 - k)) on uint64. -/
def rotl64 (x k : Nat) : Nat := ((x <<< k) % M64) ||| (x >>> (64 - k))

/-- Go binary.LittleEndian.Uint64: decode the first 8 bytes of a buffer
as a little-endian 64-bit word (call sites always pass at least 8 bytes;
missing entries read as 0). -/
def readU64 (l : List Nat) : Nat :=
  l.getD 0 0 + l.getD 1 0 * 2 ^ 8 + l.getD 2 0 * 2 ^ 16 + l.getD 3 0 * 2 ^ 24 +
  l.getD 4 0 * 2 ^ 32 + l.getD 5 0 * 2 ^ 40 + l.getD 6 0 * 2 ^ 48 + l.getD 7 0 * 2 ^ 56

/-- Go binary.LittleEndian.PutUint64: the 8 little-endian bytes of a
64-bit word (byte i is (x >> 8i) mod 256). -/
def putU64 (x : Nat) : List Nat :=
  [x % 2 ^ 8, x / 2 ^ 8 % 2 ^ 8, x / 2 ^ 16 % 2 ^ 8, x / 2 ^ 24 % 2 ^ 8,
   x / 2 ^ 32 % 2 ^ 8, x / 2 ^ 40 % 2 ^ 8, x / 2 ^ 48 % 2 ^ 8, x / 2 ^ 56 % 2 ^ 8]

/-- Go copy(dst, src): overwrite the first min(len dst, len src) entries
of dst with those of src; also return that count. -/
def goCopy (dst src : List Nat) : List Nat × Nat :=
  let c := min dst.length src.length
  (src.take c ++ dst.drop c, c)

/-- Go copy(dst[off:], src): overwrite dst starting at position off with
min(len dst - off, len src) entries of src; also return that count. -/
def goCopyAt (dst : List Nat) (off : Nat) (src : List Nat) : List Nat × Nat :=
  let c := min (dst.length - off) src.length
  (dst.take off ++ src.take c ++ dst.drop (off + c), c)

/-- The hash256 struct of the incremental engine: block is the 32-byte
last-block / pending-tail buffer, s0..s3 the accumulator words, seed the
stored seed, total the lifetime byte counter, n the pending length. -/
structure Hash256 where
  block : List Nat
  s0 : Nat
  s1 : Nat
  s2 : Nat
  s3 : Nat
  seed : Nat
  total : Nat
  n : Nat
deriving DecidableEq

/-- Go New(seed): zero-valued hash256 with h.seed = seed and h.s[3] = seed. -/
def New (seed : Nat) : Hash256 :=
  { block := List.replicate 32 0, s0 := 0, s1 := 0, s2 := 0, s3 := seed,
    seed := seed, total := 0, n := 0 }

/-- Go (h).Reset(): first the assignment *h = hash256 zero value (which
zeroes every field, including h.seed), then h.s[3] = h.seed, which at
that point reads the already-zeroed seed. -/
def Reset (_h : Hash256) : Hash256 :=
  let h : Hash256 :=
    { block := List.replicate 32 0, s0 := 0, s1 := 0, s2 := 0, s3 := 0,
      seed := 0, total := 0, n := 0 }
  { h with s3 := h.seed }

/-- Go (h).write32(buf): decode four little-endian words from buf and
fold them into the accumulator (absorption, no extra additive term). -/
def write32 (h : Hash256) (buf : List Nat) : Hash256 :=
  let b0 := readU64 buf
  let b1 := readU64 (buf.drop 8)
  let b2 := readU64 (buf.drop 16)
  let b3 := readU64 (buf.drop 24)
  let t0 := add64 h.s0 (h.s1 + b3)
  let t1 := add64 t0 (rotl64 h.s1 14)
  let t2 := add64 h.s2 (h.s3 + b2)
  let t3 := add64 t2 (rotl64 h.s3 23)
  let u0 := add64 t0 (t3 + b1)
  let u3 := u0 ^^^ rotl64 t3 16
  let u2 := add64 t2 (t1 + b0)
  let u1 := u2 ^^^ rotl64 t1 40
  { h with s0 := u0, s1 := u1, s2 := u2, s3 := u3 }

/-- The block loop of Go (h).Write plus the trailing assignment
h.n = copy(h.block[:], buf[:]).  While at least 32 bytes remain, absorb
one block (caching the bytes of the final full block in h.block when
len(buf) < 64); afterwards copy the remaining bytes over the front of
h.block and store their count in h.n. -/
def writeLoop : Nat → Hash256 → List Nat → Hash256
  | 0, h, buf =>
      if 32 ≤ buf.length then h
      else
        let p := goCopy h.block buf
        { h with block := p.1, n := p.2 }
  | fuel + 1, h, buf =>
      if 32 ≤ buf.length then
        let h1 := write32 h buf
        let h2 := if buf.length < 64 then { h1 with block := (goCopy h1.block buf).1 } else h1
        writeLoop fuel h2 (buf.drop 32)
      else
        let p := goCopy h.block buf
        { h with block := p.1, n := p.2 }

/-- Go (h).Write(buf): add len(buf) to the total counter; if a pending
tail exists, fill it (absorbing the block if it reaches 32 bytes); then
run the block loop and the final pending-tail assignment. -/
def Write (h0 : Hash256) (buf : List Nat) : Hash256 :=
  let h : Hash256 := { h0 with total := add64 h0.total buf.length }
  if h.n ≠ 0 then
    let p := goCopyAt h.block h.n buf
    let n' := h.n + p.2
    let rest := buf.drop p.2
    if n' = 32 then
      let h' := write32 { h with block := p.1, n := n' } p.1
      writeLoop rest.length { h' with n := 0 } rest
    else
      writeLoop rest.length { h with block := p.1, n := n' } rest
  else
    writeLoop buf.length h buf

/-- One round of the finalization loop of Go (h).Sum, with the engine's
total byte counter as the extra term added in the s1 update. -/
def finRound (extra : Nat) (b s : Nat × Nat × Nat × Nat) : Nat × Nat × Nat × Nat :=
  match b, s with
  | (b0, b1, b2, b3), (s0, s1, s2, s3) =>
    let t0 := add64 s0 (s1 + b3)
    let t1 := add64 t0 (rotl64 s1 14 + extra)
    let t2 := add64 s2 (s3 + b2)
    let t3 := add64 t2 (rotl64 s3 23)
    let u0 := add64 t0 (t3 + b1)
    let u3 := u0 ^^^ rotl64 t3 16
    let u2 := add64 t2 (t1 + b0)
    let u1 := u2 ^^^ rotl64 t1 40
    (u0, u1, u2, u3)

/-- The finalization loop of Go (h).Sum run for a given number of
iterations (the source runs it 6 times). -/
def finRounds (extra : Nat) (b : Nat × Nat × Nat × Nat) :
    Nat → Nat × Nat × Nat × Nat → Nat × Nat × Nat × Nat
  | 0, s => s
  | k + 1, s => finRounds extra b k (finRound extra b s)

/-- The 32 digest bytes produced by Go (h).Sum: decode the virtual final
block from h.block, run six finalization rounds on a copy of the
accumulator with extra term h.total, and emit the four resulting words
little-endian. -/
def SumBytes (h : Hash256) : List Nat :=
  let b := (readU64 h.block, readU64 (h.block.drop 8), readU64 (h.block.drop 16),
            readU64 (h.block.drop 24))
  match finRounds h.total b 6 (h.s0, h.s1, h.s2, h.s3) with
  | (s0, s1, s2, s3) => putU64 s0 ++ putU64 s1 ++ putU64 s2 ++ putU64 s3

/-- Go (h).Sum(p): append the 32 digest bytes to p. -/
def Sum (h : Hash256) (p : List Nat) : List Nat :=
  p ++ SumBytes h

/-- Go (h).Sum(p) together with the receiver state after the call.  The
body of Sum assigns only the locals tmp-decoded b, the copied s and r;
it contains no assignment to any field of h, so the receiver after the
call is h itself. -/
def SumOp (h : Hash256) (p : List Nat) : List Nat × Hash256 :=
  (Sum h p, h)

/-- Go (h).MarshalBinary(): 81 bytes laid out as h.block (32), the four
accumulator words (8 each, little-endian), the seed (8), the total
counter (8) and byte(h.n); the error result is always nil. -/
def marshalBytes (h : Hash256) : List Nat :=
  h.block ++ (putU64 h.s0 ++ (putU64 h.s1 ++ (putU64 h.s2 ++ (putU64 h.s3 ++
    (putU64 h.seed ++ (putU64 h.total ++ [h.n % 256]))))))

def MarshalBinary (h : Hash256) : List Nat × Option String :=
  (marshalBytes h, none)

/-- Go (h).UnmarshalBinary(data): reject data shorter than 81 bytes with
the length error, reject data[80] >= 32 with the corruption error, and
otherwise overwrite every field of the receiver from data.  The result
pairs the receiver state after the call with the returned error. -/
def UnmarshalBinary (h : Hash256) (data : List Nat) : Hash256 × Option String :=
  if data.length < 81 then (h, some "invalid length")
  else if 32 ≤ data.getD 80 0 then (h, some "invalid data")
  else
    ({ block := (goCopy h.block data).1,
       s0 := readU64 (data.drop 32), s1 := readU64 (data.drop 40),
       s2 := readU64 (data.drop 48), s3 := readU64 (data.drop 56),
       seed := readU64 (data.drop 64), total := readU64 (data.drop 72),
       n := data.getD 80 0 }, none)

/-- Little-endian word decode of a 32-byte block at offsets 0, 8, 16, 24
(the four binary.LittleEndian.Uint64 reads the source performs on a
block). -/
def wordsOf (l : List Nat) : Nat × Nat × Nat × Nat :=
  (readU64 l, readU64 (l.drop 8), readU64 (l.drop 16), readU64 (l.drop 24))

/-- Byte image of four 64-bit words, little-endian, in word order (the
four binary.LittleEndian.PutUint64 writes the source performs). -/
def bytesOfWords (w : Nat × Nat × Nat × Nat) : List Nat :=
  putU64 w.1 ++ putU64 w.2.1 ++ putU64 w.2.2.1 ++ putU64 w.2.2.2

/-- Body of the absorption loop of Go Pengyhash (identical mixing steps
to write32, kept separate because the source inlines its own copy). -/
def pengyMix (b s : Nat × Nat × Nat × Nat) : Nat × Nat × Nat × Nat :=
  match b, s with
  | (b0, b1, b2, b3), (s0, s1, s2, s3) =>
    let t0 := add64 s0 (s1 + b3)
    let t1 := add64 t0 (rotl64 s1 14)
    let t2 := add64 s2 (s3 + b2)
    let t3 := add64 t2 (rotl64 s3 23)
    let u0 := add64 t0 (t3 + b1)
    let u3 := u0 ^^^ rotl64 t3 16
    let u2 := add64 t2 (t1 + b0)
    let u1 := u2 ^^^ rotl64 t1 40
    (u0, u1, u2, u3)

/-- The absorption loop of Go Pengyhash: while at least 32 bytes remain,
decode a block into b (which persists across iterations) and mix it into
s; return the final b, s and the remaining bytes. -/
def pengyAbsorb : Nat → Nat × Nat × Nat × Nat → Nat × Nat × Nat × Nat → List Nat →
    (Nat × Nat × Nat × Nat) × (Nat × Nat × Nat × Nat) × List Nat
  | 0, b, s, buf => (b, s, buf)
  | fuel + 1, b, s, buf =>
      if 32 ≤ buf.length then
        let b' := wordsOf buf
        pengyAbsorb fuel b' (pengyMix b' s) (buf.drop 32)
      else (b, s, buf)

/-- One round of the finalization loop of Go Pengyhash, with the widened
32-bit seed as the extra term added in the s1 update. -/
def pengyFinRound (seed : Nat) (b s : Nat × Nat × Nat × Nat) : Nat × Nat × Nat × Nat :=
  match b, s with
  | (b0, b1, b2, b3), (s0, s1, s2, s3) =>
    let t0 := add64 s0 (s1 + b3)
    let t1 := add64 t0 (rotl64 s1 14 + seed)
    let t2 := add64 s2 (s3 + b2)
    let t3 := add64 t2 (rotl64 s3 23)
    let u0 := add64 t0 (t3 + b1)
    let u3 := u0 ^^^ rotl64 t3 16
    let u2 := add64 t2 (t1 + b0)
    let u1 := u2 ^^^ rotl64 t1 40
    (u0, u1, u2, u3)

/-- The finalization loop of Go Pengyhash run for a given number of
iterations (the source runs it 6 times). -/
def pengyFinRounds (seed : Nat) (b : Nat × Nat × Nat × Nat) :
    Nat → Nat × Nat × Nat × Nat → Nat × Nat × Nat × Nat
  | 0, s => s
  | k + 1, s => pengyFinRounds seed b k (pengyFinRound seed b s)

/-- Go Pengyhash(buf, seed): initialize s = (0,0,0,uint64(len buf)),
absorb the complete blocks, overlay the remaining bytes onto the byte
image of the last decoded block words (copy(tmp, buf) over the PutUint64
image of b), run six finalization rounds and return the wrapping sum of
the four words. -/
def Pengyhash (buf : List Nat) (seed : Nat) : Nat :=
  let t := pengyAbsorb buf.length (0, 0, 0, 0) (0, 0, 0, buf.length % M64) buf
  let tmp := (goCopy (bytesOfWords t.1) t.2.2).1
  let f := pengyFinRounds seed (wordsOf tmp) 6 t.2.1
  (f.1 + f.2.1 + f.2.2.1 + f.2.2.2) % M64

/-- Specification 4.1: the mixing round, written from the spec's step
list; extra is added only in the S1 update and is 0 during absorption. -/
def mixRound (extra : Nat) (b s : Nat × Nat × Nat × Nat) : Nat × Nat × Nat × Nat :=
  match b, s with
  | (b0, b1, b2, b3), (s0, s1, s2, s3) =>
    let t0 := add64 s0 (s1 + b3)
    let t1 := add64 t0 (rotl64 s1 14 + extra)
    let t2 := add64 s2 (s3 + b2)
    let t3 := add64 t2 (rotl64 s3 23)
    let u0 := add64 t0 (t3 + b1)
    let u3 := u0 ^^^ rotl64 t3 16
    let u2 := add64 t2 (t1 + b0)
    let u1 := u2 ^^^ rotl64 t1 40
    (u0, u1, u2, u3)

/-- Specification 4.1: the mixing round repeated a given number of times
with B held constant (finalization runs it six times). -/
def mixRounds (extra : Nat) (b : Nat × Nat × Nat × Nat) :
    Nat → Nat × Nat × Nat × Nat → Nat × Nat × Nat × Nat
  | 0, s => s
  | k + 1, s => mixRounds extra b k (mixRound extra b s)

/-- The consecutive complete 32-byte blocks of a buffer, in order. -/
def chunks32 (l : List Nat) : List (List Nat) :=
  if _h32 : 32 ≤ l.length then l.take 32 :: chunks32 (l.drop 32) else []
termination_by l.length
decreasing_by simp; omega

/-- Specification 4.2, written from the spec's words: initialize
S = (0,0,0,len), absorb each complete 32-byte block as four little-endian
words, build the virtual final block by overlaying the trailing
r = len mod 32 bytes onto the byte image of the last fully absorbed
block's words (all-zero words if no block was absorbed), run six
finalization rounds with the seed as extra term, and return the wrapping
sum S0 + S1 + S2 + S3. -/
def PengyhashSpec (buf : List Nat) (seed : Nat) : Nat :=
  let cs := chunks32 buf
  let s := cs.foldl (fun s c => mixRound 0 (wordsOf c) s) (0, 0, 0, buf.length % M64)
  let lastW := wordsOf (cs.getLastD (List.replicate 32 0))
  let r := buf.length % 32
  let virt := buf.drop (buf.length - r) ++ (bytesOfWords lastW).drop r
  let f := mixRounds seed (wordsOf virt) 6 s
  (f.1 + f.2.1 + f.2.2.1 + f.2.2.2) % M64

/-- Engine states reachable by construction with a 64-bit seed followed
by any finite sequence of Write calls. -/
def Reachable (h : Hash256) : Prop :=
  ∃ (seed : Nat) (ws : List (List Nat)), seed < M64 ∧ h = ws.foldl Write (New seed)

/-- Structural well-formedness of an engine state: 32-byte block buffer,
64-bit accumulator words, seed and counter, pending length below 32. -/
def WF (h : Hash256) : Prop :=
  h.block.length = 32 ∧ h.s0 < M64 ∧ h.s1 < M64 ∧ h.s2 < M64 ∧ h.s3 < M64 ∧
  h.seed < M64 ∧ h.total < M64 ∧ h.n < 32

/-- C1: chunking invariance fails on this code.  Splitting the input
[1, 2, 3] into the chunks [1], [2], [3] yields a different digest than a
single Write of [1, 2, 3], because the trailing assignment
h.n = copy(h.block[:], buf[:]) in Write resets the pending length to 0
whenever a call leaves the 32-byte block still incomplete (here after
the second Write), so the third Write overwrites the pending bytes. -/
theorem C1_chunking_bug :
    Sum (Write (Write (Write (New 0) [1]) [2]) [3]) [] ≠ Sum (Write (New 0) [1, 2, 3]) [] ∧
    (Write (Write (New 0) [1]) [2]).n = 0 ∧ (Write (New 0) [1, 2]).n = 2 := by
  decide

/-- C2: Reset does not restore the constructed state.  The assignment of
the hash256 zero value to *h zeroes h.seed before h.s[3] = h.seed reads
it, so after Reset both the stored seed and S3 are 0 rather than the
original seed, and the digest differs from a fresh engine's digest. -/
theorem C2_reset_seed_bug :
    (Reset (New 5)).seed = 0 ∧ (Reset (New 5)).s3 = 0 ∧
    Reset (New 5) ≠ New 5 ∧
    Sum (Reset (New 5)) [] ≠ Sum (New 5) [] := by
  decide

/-- C3: the two known vectors hold bit-exactly: the one-shot hash of 39
zero bytes with seed 39 is 0xf4f178b8b8deb902, and the incremental
engine seeded with 39 after one Write of the same 39 zero bytes produces
the fixed 32-byte digest. -/
theorem C3_known_vectors :
    Pengyhash (List.replicate 39 0) 39 = 0xf4f178b8b8deb902 ∧
    Sum (Write (New 39) (List.replicate 39 0)) [] =
      [0x01, 0x54, 0xba, 0x8a, 0x00, 0x37, 0x34, 0x6c,
       0x32, 0x6a, 0xde, 0x13, 0x9f, 0xda, 0xd7, 0x4b,
       0xd0, 0x16, 0x99, 0x27, 0xbc, 0x2a, 0x26, 0x8c,
       0xff, 0xe3, 0xac, 0xf2, 0x5c, 0x3c, 0xbf, 0xb0] := by
  decide

/-- C7: Sum is non-mutating and idempotent: the receiver state after a
Sum call is unchanged, repeated Sum calls return identical bytes, and a
Write after a Sum behaves exactly as if Sum had never been called. -/
theorem C7_digest_frame (h : Hash256) (p : List Nat) :
    (SumOp h p).2 = h ∧
    (SumOp ((SumOp h p).2) p).1 = (SumOp h p).1 ∧
    (∀ bs, Write ((SumOp h p).2) bs = Write h bs) ∧
    (∀ bs q, Sum (Write ((SumOp h p).2) bs) q = Sum (Write h bs) q) := by
  exact ⟨rfl, rfl, fun _ => rfl, fun _ _ => rfl⟩

/-- The digest part of Sum always consists of exactly 32 bytes. -/
lemma sumBytes_length (h : Hash256) : (SumBytes h).length = 32 := by
  simp [SumBytes, putU64]

/-- C10: Sum(p) returns p unchanged followed by exactly 32 appended
digest bytes, so the result has length len(p) + 32 and the digest bytes
do not depend on p. -/
theorem C10_sum_append (h : Hash256) (p : List Nat) :
    Sum h p = p ++ SumBytes h ∧
    (Sum h p).length = p.length + 32 ∧
    (Sum h p).take p.length = p ∧
    (Sum h p).drop p.length = Sum h [] := by
  refine ⟨rfl, ?_, ?_, ?_⟩
  · simp [Sum, sumBytes_length]
  · simp [Sum]
  · simp [Sum]

/-- C5: UnmarshalBinary returns the length error on every input shorter
than 81 bytes, the corruption error on every input of at least 81 bytes
whose byte 80 is 32 or more, and no error when byte 80 is below 32. -/
theorem C5_import_validation (h : Hash256) (data : List Nat) :
    (data.length < 81 → UnmarshalBinary h data = (h, some "invalid length")) ∧
    (81 ≤ data.length → 32 ≤ data.getD 80 0 →
      UnmarshalBinary h data = (h, some "invalid data")) ∧
    (81 ≤ data.length → data.getD 80 0 < 32 →
      (UnmarshalBinary h data).2 = none) := by
  unfold UnmarshalBinary
  refine ⟨fun hlt => ?_, fun hge hb => ?_, fun hge hb => ?_⟩
  · rw [if_pos hlt]
  · have h1 : ¬ data.length < 81 := by omega
    rw [if_neg h1, if_pos hb]
  · have h1 : ¬ data.length < 81 := by omega
    have h2 : ¬ 32 ≤ data.getD 80 0 := by omega
    rw [if_neg h1, if_neg h2]

theorem C5_import_validation_witness :
    UnmarshalBinary (New 0) (List.replicate 80 0) = (New 0, some "invalid length") ∧
    UnmarshalBinary (New 0) (List.replicate 80 0 ++ [32]) = (New 0, some "invalid data") ∧
    (UnmarshalBinary (New 0) (List.replicate 81 0)).2 = none := by
  refine ⟨(C5_import_validation _ _).1 (by decide),
          (C5_import_validation _ _).2.1 (by decide) (by decide),
          (C5_import_validation _ _).2.2 (by decide) (by decide)⟩

/-- C6: a failed UnmarshalBinary (either error) leaves the target engine
exactly as it was, and an import never produces a pending length of 32
or more when the prior engine's pending length was in range (on success
the pending length comes from byte 80, which the guard bounds by 31). -/
theorem C6_import_atomicity (h : Hash256) (data : List Nat) :
    ((UnmarshalBinary h data).2 ≠ none → (UnmarshalBinary h data).1 = h) ∧
    (h.n < 32 → (UnmarshalBinary h data).1.n < 32) := by
  unfold UnmarshalBinary
  split
  · exact ⟨fun _ => rfl, fun hn => hn⟩
  · split
    · exact ⟨fun _ => rfl, fun hn => hn⟩
    · next hb =>
      exact ⟨fun hc => absurd rfl hc, fun _ => by simpa using (by omega : data.getD 80 0 < 32)⟩

theorem C6_import_atomicity_witness :
    (UnmarshalBinary (Write (New 3) [9]) []).1 = Write (New 3) [9] ∧
    (UnmarshalBinary (Write (New 3) [9]) (List.replicate 81 0)).1.n < 32 := by
  exact ⟨(C6_import_atomicity _ _).1 (by decide), (C6_import_atomicity _ _).2 (by decide)⟩

/-- Absorption in the source (no extra term) is the specification mixing
round with extra 0. -/
lemma pengyMix_eq_mixRound (b s : Nat × Nat × Nat × Nat) : pengyMix b s = mixRound 0 b s := by
  rcases b with ⟨b0, b1, b2, b3⟩
  rcases s with ⟨s0, s1, s2, s3⟩
  rfl

/-- The engine's finalization round equals the specification round. -/
lemma finRound_eq_mixRound (extra : Nat) (b s : Nat × Nat × Nat × Nat) :
    finRound extra b s = mixRound extra b s := by
  rcases b with ⟨b0, b1, b2, b3⟩
  rcases s with ⟨s0, s1, s2, s3⟩
  rfl

/-- The one-shot finalization round equals the specification round. -/
lemma pengyFinRound_eq_mixRound (seed : Nat) (b s : Nat × Nat × Nat × Nat) :
    pengyFinRound seed b s = mixRound seed b s := by
  rcases b with ⟨b0, b1, b2, b3⟩
  rcases s with ⟨s0, s1, s2, s3⟩
  rfl

lemma finRounds_eq_mixRounds (extra : Nat) (b : Nat × Nat × Nat × Nat) (k : Nat)
    (s : Nat × Nat × Nat × Nat) : finRounds extra b k s = mixRounds extra b k s := by
  induction k generalizing s with
  | zero => rfl
  | succ k ih => simp [finRounds, mixRounds, finRound_eq_mixRound, ih]

lemma pengyFinRounds_eq_mixRounds (seed : Nat) (b : Nat × Nat × Nat × Nat) (k : Nat)
    (s : Nat × Nat × Nat × Nat) : pengyFinRounds seed b k s = mixRounds seed b k s := by
  induction k generalizing s with
  | zero => rfl
  | succ k ih => simp [pengyFinRounds, mixRounds, pengyFinRound_eq_mixRound, ih]

/-- C9: the finalization of both engines is the specification's mixing
round (rotations 14, 23, 16, 40; inputs B3, B2, B1, B0 feeding the
S0, S2, S0, S2 updates) run six times with B held constant, the extra
term being the total byte counter for the incremental engine and the
widened 32-bit seed for the one-shot engine, and block absorption in
both engines is the same round with no extra term. -/
theorem C9_finalization_structure :
    (∀ h buf, write32 h buf =
      { h with s0 := (mixRound 0 (wordsOf buf) (h.s0, h.s1, h.s2, h.s3)).1,
               s1 := (mixRound 0 (wordsOf buf) (h.s0, h.s1, h.s2, h.s3)).2.1,
               s2 := (mixRound 0 (wordsOf buf) (h.s0, h.s1, h.s2, h.s3)).2.2.1,
               s3 := (mixRound 0 (wordsOf buf) (h.s0, h.s1, h.s2, h.s3)).2.2.2 }) ∧
    (∀ h, SumBytes h =
      bytesOfWords (mixRounds h.total (wordsOf h.block) 6 (h.s0, h.s1, h.s2, h.s3))) ∧
    (∀ seed b s, pengyFinRounds seed b 6 s = mixRounds seed b 6 s) ∧
    (∀ b s, pengyMix b s = mixRound 0 b s) := by
  refine ⟨fun h buf => ?_, fun h => ?_, fun seed b s => pengyFinRounds_eq_mixRounds _ _ _ _,
          pengyMix_eq_mixRound⟩
  · rfl
  · show SumBytes h = bytesOfWords _
    rw [SumBytes, finRounds_eq_mixRounds]
    rfl

lemma getD_drop (l : List Nat) (n i d : Nat) : (l.drop n).getD i d = l.getD (n + i) d := by
  induction l generalizing n with
  | nil => simp
  | cons a l ih =>
    cases n with
    | zero => simp
    | succ n =>
      rw [List.drop_succ_cons, ih n, Nat.succ_add]
      simp

lemma getD_take_ite (l : List Nat) (n i d : Nat) :
    (l.take n).getD i d = if i < n then l.getD i d else d := by
  induction l generalizing n i with
  | nil => simp
  | cons a l ih =>
    cases n with
    | zero => simp
    | succ n =>
      cases i with
      | zero => simp
      | succ i => simpa [Nat.succ_lt_succ_iff] using ih n i

/-- Reading the four words of a 32-byte chunk sees only its first 32
bytes, so taking the chunk first does not change the decode. -/
lemma wordsOf_take32 (l : List Nat) : wordsOf (l.take 32) = wordsOf l := by
  simp only [wordsOf, readU64, getD_drop, getD_take_ite]
  norm_num

lemma bytesOfWords_length (w : Nat × Nat × Nat × Nat) : (bytesOfWords w).length = 32 := by
  simp [bytesOfWords, putU64]

/-- Go copy(dst, src) when src is no longer than dst: the whole of src
followed by the tail of dst. -/
lemma goCopy_full (dst src : List Nat) (h : src.length ≤ dst.length) :
    (goCopy dst src).1 = src ++ dst.drop src.length := by
  simp [goCopy, Nat.min_eq_right h]

/-- Tracking the block variable through the one-shot absorption loop:
it ends as the words of the last complete block, or the start value. -/
lemma foldl_wordsOf_getLastD (cs : List (List Nat)) (d : List Nat) :
    cs.foldl (fun _ c => wordsOf c) (wordsOf d) = wordsOf (cs.getLastD d) := by
  induction cs generalizing d with
  | nil => rfl
  | cons c cs ih =>
    simp only [List.foldl_cons]
    rw [List.getLastD_cons]
    exact ih c

lemma foldl_pengyMix_eq (cs : List (List Nat)) (s : Nat × Nat × Nat × Nat) :
    cs.foldl (fun s c => pengyMix (wordsOf c) s) s =
      cs.foldl (fun s c => mixRound 0 (wordsOf c) s) s := by
  induction cs generalizing s with
  | nil => rfl
  | cons c cs ih => simp [pengyMix_eq_mixRound, ih]

/-- The one-shot absorption loop, run with fuel at least the buffer
length, absorbs exactly the complete 32-byte chunks in order, leaves the
words of the last complete chunk in the block variable, and returns the
trailing len mod 32 bytes. -/
lemma pengyAbsorb_spec :
    ∀ (fuel : Nat) (buf : List Nat) (b s : Nat × Nat × Nat × Nat), buf.length ≤ fuel →
    pengyAbsorb fuel b s buf =
      ((chunks32 buf).foldl (fun _ c => wordsOf c) b,
       (chunks32 buf).foldl (fun s c => pengyMix (wordsOf c) s) s,
       buf.drop (buf.length - buf.length % 32)) := by
  intro fuel
  induction fuel with
  | zero =>
    intro buf b s hle
    have hb : buf = [] := List.length_eq_zero.mp (Nat.le_zero.mp hle)
    subst hb
    simp [pengyAbsorb, chunks32]
  | succ fuel ih =>
    intro buf b s hle
    by_cases h32 : 32 ≤ buf.length
    · have hdl : (buf.drop 32).length ≤ fuel := by
        simp only [List.length_drop]
        omega
      rw [chunks32, dif_pos h32]
      simp only [pengyAbsorb, if_pos h32]
      rw [ih _ _ _ hdl]
      simp only [List.foldl_cons, wordsOf_take32, List.drop_drop, Prod.mk.injEq]
      refine ⟨trivial, trivial, ?_⟩
      congr 1
      simp only [List.length_drop]
      omega
    · simp only [pengyAbsorb, if_neg h32]
      rw [chunks32, dif_neg h32]
      have hz : buf.length - buf.length % 32 = 0 := by omega
      simp [hz]

/-- C8: the one-shot function is exactly the specification's algorithm:
initialize S = (0,0,0,len), absorb each complete 32-byte block as four
little-endian words, overlay the trailing r = len mod 32 bytes onto the
byte image of the last fully absorbed block's words (all-zero words if
the buffer had no complete block), run six finalization rounds with the
seed as extra term, and return the wrapping sum of the four words; it is
total over every buffer, including the empty one, and every seed. -/
theorem C8_oneshot_spec (buf : List Nat) (seed : Nat) :
    Pengyhash buf seed = PengyhashSpec buf seed := by
  simp only [Pengyhash, PengyhashSpec]
  rw [pengyAbsorb_spec buf.length buf _ _ (le_refl _)]
  have h0 : ((0, 0, 0, 0) : Nat × Nat × Nat × Nat) = wordsOf (List.replicate 32 0) := by
    decide
  rw [h0, foldl_wordsOf_getLastD, foldl_pengyMix_eq]
  have hsl : (buf.drop (buf.length - buf.length % 32)).length = buf.length % 32 := by
    simp only [List.length_drop]
    omega
  rw [goCopy_full _ _ (by rw [hsl, bytesOfWords_length]; omega), hsl,
    pengyFinRounds_eq_mixRounds]

lemma M64_pos : 0 < M64 := Nat.two_pow_pos 64

lemma add64_lt (a b : Nat) : add64 a b < M64 := Nat.mod_lt _ M64_pos

lemma rotl64_lt (x k : Nat) (hx : x < M64) : rotl64 x k < M64 := by
  have h1 : (x <<< k) % M64 < M64 := Nat.mod_lt _ M64_pos
  have h2 : x >>> (64 - k) < M64 := by
    rw [Nat.shiftRight_eq_div_pow]
    exact Nat.lt_of_le_of_lt (Nat.div_le_self _ _) hx
  exact Nat.or_lt_two_pow h1 h2

lemma xor64_lt {a b : Nat} (ha : a < M64) (hb : b < M64) : a ^^^ b < M64 :=
  Nat.xor_lt_two_pow ha hb

/-- The accumulator words produced by one absorption are 64-bit values. -/
lemma write32_s_lt (h : Hash256) (buf : List Nat) :
    (write32 h buf).s0 < M64 ∧ (write32 h buf).s1 < M64 ∧
    (write32 h buf).s2 < M64 ∧ (write32 h buf).s3 < M64 :=
  ⟨add64_lt _ _, xor64_lt (add64_lt _ _) (rotl64_lt _ _ (add64_lt _ _)), add64_lt _ _,
   xor64_lt (add64_lt _ _) (rotl64_lt _ _ (add64_lt _ _))⟩

lemma goCopy_length (dst src : List Nat) : ((goCopy dst src).1).length = dst.length := by
  simp only [goCopy, List.length_append, List.length_take, List.length_drop]
  omega

lemma goCopyAt_length (dst : List Nat) (off : Nat) (src : List Nat) (h : off ≤ dst.length) :
    ((goCopyAt dst off src).1).length = dst.length := by
  simp only [goCopyAt, List.length_append, List.length_take, List.length_drop]
  omega

/-- The final pending-tail assignment of Write keeps the state well
formed when fewer than 32 bytes remain. -/
lemma WF_tailAssign (h : Hash256) (buf : List Nat) (hw : WF h) (hlt : ¬ 32 ≤ buf.length) :
    WF { h with block := (goCopy h.block buf).1, n := (goCopy h.block buf).2 } := by
  obtain ⟨hb, h0, h1, h2, h3, hs, ht, _⟩ := hw
  refine ⟨?_, h0, h1, h2, h3, hs, ht, ?_⟩
  · rw [goCopy_length]
    exact hb
  · show (goCopy h.block buf).2 < 32
    simp only [goCopy]
    omega

lemma WF_writeLoop (fuel : Nat) : ∀ (h : Hash256) (buf : List Nat), WF h →
    WF (writeLoop fuel h buf) := by
  induction fuel with
  | zero =>
    intro h buf hw
    simp only [writeLoop]
    split
    · exact hw
    · next hlt => exact WF_tailAssign h buf hw hlt
  | succ fuel ih =>
    intro h buf hw
    simp only [writeLoop]
    split
    · apply ih
      split
      · exact ⟨by rw [goCopy_length]; exact hw.1, (write32_s_lt h buf).1,
          (write32_s_lt h buf).2.1, (write32_s_lt h buf).2.2.1, (write32_s_lt h buf).2.2.2,
          hw.2.2.2.2.2.1, hw.2.2.2.2.2.2.1, hw.2.2.2.2.2.2.2⟩
      · exact ⟨hw.1, (write32_s_lt h buf).1, (write32_s_lt h buf).2.1,
          (write32_s_lt h buf).2.2.1, (write32_s_lt h buf).2.2.2,
          hw.2.2.2.2.2.1, hw.2.2.2.2.2.2.1, hw.2.2.2.2.2.2.2⟩
    · next hlt => exact WF_tailAssign h buf hw hlt

/-- After absorbing a completed pending block and clearing the pending
length, the state is well formed. -/
lemma WF_write32_n0 (g : Hash256) (buf : List Nat) (hb : g.block.length = 32)
    (hs : g.seed < M64) (ht : g.total < M64) : WF { write32 g buf with n := 0 } :=
  ⟨hb, add64_lt _ _, xor64_lt (add64_lt _ _) (rotl64_lt _ _ (add64_lt _ _)), add64_lt _ _,
   xor64_lt (add64_lt _ _) (rotl64_lt _ _ (add64_lt _ _)), hs, ht,
   by show (0 : Nat) < 32; omega⟩

/-- Write preserves well-formedness of the engine state. -/
lemma WF_Write (h : Hash256) (buf : List Nat) (hw : WF h) : WF (Write h buf) := by
  obtain ⟨hb, h0, h1, h2, h3, hs, ht, hn⟩ := hw
  simp only [Write]
  split
  · split
    · apply WF_writeLoop
      apply WF_write32_n0
      · show ((goCopyAt h.block h.n buf).1).length = 32
        rw [goCopyAt_length _ _ _ (by omega)]
        exact hb
      · exact hs
      · exact add64_lt _ _
    · next hne =>
      apply WF_writeLoop
      refine ⟨?_, h0, h1, h2, h3, hs, add64_lt _ _, ?_⟩
      · show ((goCopyAt h.block h.n buf).1).length = 32
        rw [goCopyAt_length _ _ _ (by omega)]
        exact hb
      · show h.n + (goCopyAt h.block h.n buf).2 < 32
        have hc : (goCopyAt h.block h.n buf).2 = min (h.block.length - h.n) buf.length := rfl
        rw [hb] at hc
        omega
  · apply WF_writeLoop
    exact ⟨hb, h0, h1, h2, h3, hs, add64_lt _ _, hn⟩

lemma WF_New (seed : Nat) (hs : seed < M64) : WF (New seed) :=
  ⟨by simp [New], M64_pos, M64_pos, M64_pos, hs, hs, M64_pos, by show (0 : Nat) < 32; omega⟩

/-- Every reachable engine state is well formed. -/
lemma Reachable_WF (h : Hash256) (hr : Reachable h) : WF h := by
  obtain ⟨seed, ws, hs, rfl⟩ := hr
  have key : ∀ (ws : List (List Nat)) (g : Hash256), WF g → WF (ws.foldl Write g) := by
    intro ws
    induction ws with
    | nil => intro g hg; exact hg
    | cons w ws ih => intro g hg; exact ih _ (WF_Write _ _ hg)
  exact key ws _ (WF_New seed hs)

@[simp] lemma putU64_length (x : Nat) : (putU64 x).length = 8 := rfl

/-- Decoding the little-endian image of a 64-bit word (with anything
appended after it) recovers the word. -/
lemma readU64_putU64_append (x : Nat) (l : List Nat) (hx : x < M64) :
    readU64 (putU64 x ++ l) = x := by
  have hx' : x < 18446744073709551616 := hx
  simp [readU64, putU64]
  omega

lemma goCopy_src_longer (dst src : List Nat) (h : dst.length ≤ src.length) :
    (goCopy dst src).1 = src.take dst.length := by
  simp [goCopy, Nat.min_eq_left h, List.drop_length]

lemma marshal_length (h : Hash256) (hb : h.block.length = 32) :
    (marshalBytes h).length = 81 := by
  simp [marshalBytes, hb]

/-- Importing the exported snapshot of a well-formed state into a fresh
engine reproduces that state exactly, with no error. -/
lemma unmarshal_marshal (h : Hash256) (seedT : Nat) (hw : WF h) :
    UnmarshalBinary (New seedT) (marshalBytes h) = (h, none) := by
  obtain ⟨blk, a0, a1, a2, a3, sd, tt, nn⟩ := h
  obtain ⟨hb, h0, h1, h2, h3, hs, ht, hn⟩ := hw
  have hb : blk.length = 32 := hb
  have h0 : a0 < M64 := h0
  have h1 : a1 < M64 := h1
  have h2 : a2 < M64 := h2
  have h3 : a3 < M64 := h3
  have hs : sd < M64 := hs
  have ht : tt < M64 := ht
  have hn : nn < 32 := hn
  set data := marshalBytes ⟨blk, a0, a1, a2, a3, sd, tt, nn⟩ with hdata
  have hlen : data.length = 81 := marshal_length _ hb
  have d32 : data.drop 32 = putU64 a0 ++ (putU64 a1 ++ (putU64 a2 ++ (putU64 a3 ++
      (putU64 sd ++ (putU64 tt ++ [nn % 256]))))) := by
    simp only [hdata, marshalBytes]
    exact List.drop_left' hb
  have d40 : data.drop 40 = putU64 a1 ++ (putU64 a2 ++ (putU64 a3 ++
      (putU64 sd ++ (putU64 tt ++ [nn % 256])))) := by
    have e : data.drop 40 = (data.drop 32).drop 8 := by simp [List.drop_drop]
    rw [e, d32]
    exact List.drop_left' (putU64_length a0)
  have d48 : data.drop 48 = putU64 a2 ++ (putU64 a3 ++
      (putU64 sd ++ (putU64 tt ++ [nn % 256]))) := by
    have e : data.drop 48 = (data.drop 40).drop 8 := by simp [List.drop_drop]
    rw [e, d40]
    exact List.drop_left' (putU64_length a1)
  have d56 : data.drop 56 = putU64 a3 ++ (putU64 sd ++ (putU64 tt ++ [nn % 256])) := by
    have e : data.drop 56 = (data.drop 48).drop 8 := by simp [List.drop_drop]
    rw [e, d48]
    exact List.drop_left' (putU64_length a2)
  have d64 : data.drop 64 = putU64 sd ++ (putU64 tt ++ [nn % 256]) := by
    have e : data.drop 64 = (data.drop 56).drop 8 := by simp [List.drop_drop]
    rw [e, d56]
    exact List.drop_left' (putU64_length a3)
  have d72 : data.drop 72 = putU64 tt ++ [nn % 256] := by
    have e : data.drop 72 = (data.drop 64).drop 8 := by simp [List.drop_drop]
    rw [e, d64]
    exact List.drop_left' (putU64_length sd)
  have d80 : data.drop 80 = [nn % 256] := by
    have e : data.drop 80 = (data.drop 72).drop 8 := by simp [List.drop_drop]
    rw [e, d72]
    exact List.drop_left' (putU64_length tt)
  have g80 : data.getD 80 0 = nn % 256 := by
    have e := getD_drop data 80 0 0
    rw [d80] at e
    simpa using e.symm
  have hnn : nn % 256 = nn := Nat.mod_eq_of_lt (by omega)
  have htake : data.take 32 = blk := by
    simp only [hdata, marshalBytes]
    exact List.take_left' hb
  have hbl : (New seedT).block.length = 32 := by simp [New]
  simp only [UnmarshalBinary]
  rw [if_neg (by omega), if_neg (by rw [g80, hnn]; omega)]
  refine Prod.ext ?_ rfl
  show Hash256.mk _ _ _ _ _ _ _ _ = Hash256.mk blk a0 a1 a2 a3 sd tt nn
  simp only [Hash256.mk.injEq]
  refine ⟨?_, ?_, ?_, ?_, ?_, ?_, ?_, ?_⟩
  · rw [goCopy_src_longer _ _ (by omega), hbl, htake]
  · rw [d32]
    exact readU64_putU64_append _ _ h0
  · rw [d40]
    exact readU64_putU64_append _ _ h1
  · rw [d48]
    exact readU64_putU64_append _ _ h2
  · rw [d56]
    exact readU64_putU64_append _ _ h3
  · rw [d64]
    exact readU64_putU64_append _ _ hs
  · rw [d72]
    exact readU64_putU64_append _ _ ht
  · rw [g80]
    exact hnn

/-- C4: for every reachable engine state, UnmarshalBinary applied to the
81-byte output of MarshalBinary restores exactly that state into an
engine constructed with any seed, returning no error, so all further
Write and Sum behavior is identical to continuing with the original
state. -/
theorem C4_state_roundtrip (h : Hash256) (seedT : Nat) (hr : Reachable h) :
    UnmarshalBinary (New seedT) (MarshalBinary h).1 = (h, none) ∧
    (MarshalBinary h).1.length = 81 ∧
    (∀ (ws : List (List Nat)) (p : List Nat),
      Sum (ws.foldl Write (UnmarshalBinary (New seedT) (MarshalBinary h).1).1) p =
        Sum (ws.foldl Write h) p) := by
  have hw := Reachable_WF h hr
  have hrt : UnmarshalBinary (New seedT) (MarshalBinary h).1 = (h, none) :=
    unmarshal_marshal h seedT hw
  refine ⟨hrt, marshal_length h hw.1, fun ws p => ?_⟩
  rw [hrt]

theorem C4_state_roundtrip_witness :
    UnmarshalBinary (New 0) (MarshalBinary (Write (New 1) [5, 6])).1 =
      (Write (New 1) [5, 6], none) :=
  (C4_state_roundtrip (Write (New 1) [5, 6]) 0 ⟨1, [[5, 6]], by decide, rfl⟩).1

end Pengy
